import Mathlib

/-!
Verification of the compliance rule-matching engine of `app.py`
(RIDD Compliance Audit Tool).

The Python functions `normalize_text`, `extract_usage_rate`,
`check_compliance` and `add_rule` are shallowly embedded below.
Strings are modelled as `List Char`; Python values that can occur in the
JSON-backed product catalog are modelled by the inductive type `Val`
(JSON object keys are strings, so dictionary keys are modelled as
`List Char`).  Python's `str.lower` and the whitespace classes of
`str.split` / regex `\s` are modelled at ASCII level, which is exact for
the ASCII texts the tool processes.  Fallible Python code (attribute,
key and type errors that the source does not catch) is modelled in
`Except PyErr`.
-/

/-- Shorthand turning a string literal into the `List Char` representation
used throughout the development. -/
def S (s : String) : List Char := s.data

/-- ASCII whitespace, the characters Python's `str.split()` (no argument)
and the regex class `\s` treat as separators: space, tab, LF, CR, VT, FF. -/
def isSpaceC (c : Char) : Bool :=
  c.toNat = 32 || c.toNat = 9 || c.toNat = 10 || c.toNat = 13 || c.toNat = 11 || c.toNat = 12

/-- ASCII lower-casing of one character, the action of Python's
`str.lower` on ASCII text. -/
def lowerChar (c : Char) : Char :=
  if 65 ≤ c.toNat ∧ c.toNat ≤ 90 then Char.ofNat (c.toNat + 32) else c

/-- Splits a character list at every whitespace character, keeping the
(possibly empty) segments between separators; the list of segments is
always non-empty.  `words` below discards the empty segments, which
yields exactly Python's `str.split()`. -/
def segs : List Char → List (List Char)
  | [] => [[]]
  | c :: cs =>
    match segs cs with
    | [] => [[c]]
    | w :: ws => if isSpaceC c then [] :: w :: ws else (c :: w) :: ws

/-- Python's `str.split()`: the maximal whitespace-free non-empty chunks. -/
def words (s : List Char) : List (List Char) :=
  (segs s).filter (fun w => !w.isEmpty)

/-- Python's `' '.join`: interleave the chunks with single spaces. -/
def unwords : List (List Char) → List Char
  | [] => []
  | w :: ws =>
    match ws with
    | [] => w
    | _ :: _ => w ++ ' ' :: unwords ws

/-- The function `normalize_text` of `app.py` restricted to its string branch:
`' '.join(text.lower().split())` — lower-case, collapse whitespace runs to
single spaces, trim both ends. -/
def normalizeStr (s : List Char) : List Char :=
  unwords (words (s.map lowerChar))

/-- Python substring test `pat` is a prefix of `text` (char-wise). -/
def isPre : List Char → List Char → Bool
  | [], _ => true
  | _ :: _, [] => false
  | a :: as, b :: bs => a = b && isPre as bs

/-- Python's `pat in text` for strings: contiguous-substring membership.
The empty pattern is a substring of everything. -/
def pyIn (pat : List Char) : List Char → Bool
  | [] => isPre pat []
  | t@(_ :: ts) => isPre pat t || pyIn pat ts

/-- Python values that occur in the JSON-backed product catalog
(strings, booleans, integers, lists, objects, null).  Object keys are
strings, as in JSON. -/
inductive Val where
  | str (s : List Char)
  | bool (b : Bool)
  | int (n : Int)
  | list (xs : List Val)
  | dict (kvs : List (List Char × Val))
  | null

/-- The function `normalize_text` of `app.py`: the string branch normalizes, any
non-string input yields the empty string. -/
def normalize_text : Val → List Char
  | .str s => normalizeStr s
  | _ => []

/-- Decimal rendering of an integer, Python's `str` on `int`. -/
def intStr (n : Int) : List Char :=
  if n < 0 then '-' :: (Nat.repr (-n).toNat).data else (Nat.repr n.toNat).data

mutual

/-- Python `repr` of a catalog value (string quoting simplified to plain
single quotes; the catalog texts contain no quotes or escapes). -/
def pyRepr : Val → List Char
  | .str s => Char.ofNat 39 :: (s ++ [Char.ofNat 39])
  | .bool true => S "True"
  | .bool false => S "False"
  | .int n => intStr n
  | .null => S "None"
  | .list xs => '[' :: (pyReprList xs ++ [']'])
  | .dict kvs => Char.ofNat 123 :: (pyReprKVs kvs ++ [Char.ofNat 125])

/-- Comma-separated `repr`s of list elements. -/
def pyReprList : List Val → List Char
  | [] => []
  | [v] => pyRepr v
  | v :: vs => pyRepr v ++ S ", " ++ pyReprList vs

/-- Comma-separated `key: value` `repr`s of object entries. -/
def pyReprKVs : List (List Char × Val) → List Char
  | [] => []
  | [(k, v)] => pyRepr (.str k) ++ S ": " ++ pyRepr v
  | (k, v) :: kvs => pyRepr (.str k) ++ S ": " ++ pyRepr v ++ S ", " ++ pyReprKVs kvs

end

/-- Python `str` of a value, as used by f-string interpolation: a string
interpolates as itself, every other value as its `repr`. -/
def pyStr : Val → List Char
  | .str s => s
  | .bool b => pyRepr (.bool b)
  | .int n => pyRepr (.int n)
  | .list xs => pyRepr (.list xs)
  | .dict kvs => pyRepr (.dict kvs)
  | .null => S "None"

/-- f-string rendering of `product.get(key)`: Python renders a missing
key's `None` as `"None"`. -/
def pyStrOpt : Option Val → List Char
  | Option.none => S "None"
  | some v => pyStr v

/-- Python truthiness of a value. -/
def truthyV : Val → Bool
  | .str s => !s.isEmpty
  | .bool b => b
  | .int n => n != 0
  | .list xs => !xs.isEmpty
  | .dict kvs => !kvs.isEmpty
  | .null => false

/-- Python truthiness of `product.get(key)` results (`None` is falsy). -/
def truthy : Option Val → Bool
  | Option.none => false
  | some v => truthyV v

/-- Python `dict.get`/`[]` lookup on an object. -/
def dget (kvs : List (List Char × Val)) (k : List Char) : Option Val :=
  match kvs.find? (fun p => p.1 == k) with
  | Option.none => Option.none
  | some p => some p.2

/-- Python `dict` assignment `d[k] = v`: replace in place when the key
exists, append at the end otherwise (insertion order semantics). -/
def dset (kvs : List (List Char × Val)) (k : List Char) (v : Val) :
    List (List Char × Val) :=
  if (kvs.find? (fun p => p.1 == k)).isSome then
    kvs.map (fun p => if p.1 == k then (p.1, v) else p)
  else kvs ++ [(k, v)]

/-- The uncaught Python exceptions `check_compliance` / `add_rule` can
raise: `AttributeError` (method call on a wrong-typed value), `KeyError`
(missing subscripted key), `TypeError` (`str.join` on non-strings). -/
inductive PyErr where
  | attributeError
  | keyError (k : List Char)
  | typeError

-- ----------------------------------------------------------------------
-- The regular-expression engine used by `extract_usage_rate`.
-- Only the constructs occurring in the three source patterns are needed:
-- single case-insensitive characters, character classes with `*`/`+`,
-- alternation, optional `s`, and numbered capture groups.  Matching is
-- Python-style backtracking: alternatives in written order, quantifiers
-- greedy, `re.search` takes the leftmost match position.
inductive Rx where
  | eps
  | cls (p : Char → Bool)
  | seq (a b : Rx)
  | alt (a b : Rx)
  | starCls (p : Char → Bool)
  | plusCls (p : Char → Bool)
  | grp (n : Nat) (r : Rx)

/-- All ways `p*` can match a prefix of `s`, greedy (longest first):
pairs of (consumed run, remaining input). -/
def starSplits (p : Char → Bool) (s : List Char) : List (List Char × List Char) :=
  (List.range ((s.takeWhile p).length + 1)).map (fun i =>
    ((s.takeWhile p).take ((s.takeWhile p).length - i),
     (s.takeWhile p).drop ((s.takeWhile p).length - i) ++ s.dropWhile p))

/-- Backtracking matcher: every way `r` can match a prefix of `s`, in
Python preference order, as (consumed, rest, captures) triples. -/
def mrun : Rx → List Char → List (List Char × List Char × List (Nat × List Char))
  | .eps, s => [([], s, [])]
  | .cls p, s =>
    match s with
    | [] => []
    | c :: cs => if p c then [([c], cs, [])] else []
  | .seq a b, s =>
    (mrun a s).flatMap (fun ra =>
      (mrun b ra.2.1).map (fun rb => (ra.1 ++ rb.1, rb.2.1, ra.2.2 ++ rb.2.2)))
  | .alt a b, s => mrun a s ++ mrun b s
  | .starCls p, s => (starSplits p s).map (fun q => (q.1, q.2, []))
  | .plusCls p, s =>
    ((starSplits p s).filter (fun q => !q.1.isEmpty)).map (fun q => (q.1, q.2, []))
  | .grp n r, s => (mrun r s).map (fun q => (q.1, q.2.1, q.2.2 ++ [(n, q.1)]))

/-- Python `re.search`: try each start position left to right, return the
captures of the preferred match at the first position that matches. -/
def reSearch (r : Rx) : List Char → Option (List (Nat × List Char))
  | [] => (mrun r []).head?.map (fun q => q.2.2)
  | c :: ts =>
    match (mrun r (c :: ts)).head? with
    | some q => some q.2.2
    | Option.none => reSearch r ts

/-- Python `match.group(n)` (each group below captures at most once). -/
def grpGet (g : List (Nat × List Char)) (n : Nat) : Option (List Char) :=
  match g.find? (fun p => p.1 == n) with
  | some p => some p.2
  | Option.none => Option.none

/-- One pattern character under `re.IGNORECASE` (argument given in lower
case). -/
def chCI (c : Char) : Rx := .cls (fun d => lowerChar d == c)

/-- A literal pattern string under `re.IGNORECASE`. -/
def litCI (s : List Char) : Rx := s.foldr (fun c r => .seq (chCI c) r) .eps

/-- The regex class `[\d.]`. -/
def isDigitDot (c : Char) : Bool := c.isDigit || c == '.'

/-- The regex `\s*`. -/
def wsStar : Rx := .starCls isSpaceC

/-- The capture group `([\d.]+)` numbered `n`. -/
def numGrp (n : Nat) : Rx := .grp n (.plusCls isDigitDot)

/-- Alternation of a list of branches, in written order. -/
def altList : List Rx → Rx
  | [] => .cls (fun _ => false)
  | [r] => r
  | r :: rs => .alt r (altList rs)

/-- Concatenation of a list of pattern pieces. -/
def seqList : List Rx → Rx
  | [] => .eps
  | [r] => r
  | r :: rs => .seq r (seqList rs)

/-- The regex `s?`. -/
def optS : Rx := .alt (chCI 's') .eps

/-- The unit vocabulary `grams?|g|gallons?|gal|cups?|c|ounces?|oz|fl\s*oz`. -/
def unitRx : Rx := altList [
  .seq (litCI (S "gram")) optS, litCI (S "g"),
  .seq (litCI (S "gallon")) optS, litCI (S "gal"),
  .seq (litCI (S "cup")) optS, litCI (S "c"),
  .seq (litCI (S "ounce")) optS, litCI (S "oz"),
  .seq (litCI (S "fl")) (.seq wsStar (litCI (S "oz")))]

/-- The area vocabulary `square\s*feet|sq\s*ft|sqft|cubic\s*feet|cu\s*ft`. -/
def areaRx : Rx := altList [
  .seq (litCI (S "square")) (.seq wsStar (litCI (S "feet"))),
  .seq (litCI (S "sq")) (.seq wsStar (litCI (S "ft"))),
  litCI (S "sqft"),
  .seq (litCI (S "cubic")) (.seq wsStar (litCI (S "feet"))),
  .seq (litCI (S "cu")) (.seq wsStar (litCI (S "ft")))]

/-- Source pattern 1: `Concentrated Amount:\s*([\d.]+)\s*(<unit>)`. -/
def pat1 : Rx := seqList
  [litCI (S "concentrated amount:"), wsStar, numGrp 1, wsStar, .grp 2 unitRx]

/-- Source pattern 2: `Application Rate:\s*([\d.]+)\s*(<unit>)`. -/
def pat2 : Rx := seqList
  [litCI (S "application rate:"), wsStar, numGrp 1, wsStar, .grp 2 unitRx]

/-- Source pattern 3: `([\d.]+)\s*(<unit>)\s*per\s*([\d.]+)\s*(<area>)`. -/
def pat3 : Rx := seqList
  [numGrp 1, wsStar, .grp 2 unitRx, wsStar, litCI (S "per"), wsStar,
   numGrp 3, wsStar, .grp 4 areaRx]

/-- The f-string of value and unit: groups 1 and 2 of a match, space-joined. -/
def renderMatch (g : List (Nat × List Char)) : List Char :=
  (grpGet g 1).getD [] ++ ' ' :: (grpGet g 2).getD []

/-- The function `extract_usage_rate` of `app.py`: the three patterns are tried in
order against the raw text; the first match wins; otherwise the sentinel
`"Not found"`.  The `product_name` argument is accepted and unused,
exactly as in the source. -/
def extract_usage_rate (text : List Char) (product_name : Val) : List Char :=
  match reSearch pat1 text with
  | some g => renderMatch g
  | Option.none =>
    match reSearch pat2 text with
    | some g => renderMatch g
    | Option.none =>
      match reSearch pat3 text with
      | some g => renderMatch g
      | Option.none => S "Not found"

-- ----------------------------------------------------------------------
-- `check_compliance` of `app.py`, lines 95-170.  The evaluation of one
-- catalog entry is split into the four check sections of the source, in
-- source order, each threading the mutable `compliant` / `details` /
-- `labeled_usage_rates` state.  The `Additional Rules` loop and the
-- final `', '.join` can raise, so they live in `Except PyErr`.
/-- One per-product compliance verdict, the dict appended at line 162. -/
structure Verdict where
  product : Val
  compliant : Bool
  details : List (List Char)
  actual_usage_rate : List Char
  labeled_usage_rate : List Char
  deviation : List Char

/-- Inner loop of the `Application Rates` section: a nested (two-level)
rate mapping.  Every sub-rate is collected into `labeled_usage_rates`;
string sub-rates absent from the normalized text flip `compliant` and
append a finding. -/
def subRatesLoop (ntext : List Char) :
    List (List Char × Val) → List Val × Bool × List (List Char) →
      List Val × Bool × List (List Char)
  | [], st => st
  | (srt, sr) :: rest, (lab, b, ds) =>
    match sr with
    | .str s =>
      if !pyIn (normalizeStr s) ntext then
        subRatesLoop ntext rest
          (lab ++ [sr], false,
           ds ++ [S "Missing application rate for " ++ srt ++ S ": " ++ s])
      else subRatesLoop ntext rest (lab ++ [sr], b, ds)
    | _ => subRatesLoop ntext rest (lab ++ [sr], b, ds)

/-- Outer loop of the `Application Rates` section over the rate-category
mapping: nested dict values recurse into `subRatesLoop`, other values are
collected and (when strings) checked directly. -/
def ratesLoop (ntext : List Char) :
    List (List Char × Val) → List Val × Bool × List (List Char) →
      List Val × Bool × List (List Char)
  | [], st => st
  | (rt, r) :: rest, (lab, b, ds) =>
    match r with
    | .dict sub => ratesLoop ntext rest (subRatesLoop ntext sub (lab, b, ds))
    | .str s =>
      if !pyIn (normalizeStr s) ntext then
        ratesLoop ntext rest
          (lab ++ [r], false,
           ds ++ [S "Missing application rate for " ++ rt ++ S ": " ++ s])
      else ratesLoop ntext rest (lab ++ [r], b, ds)
    | _ => ratesLoop ntext rest (lab ++ [r], b, ds)

/-- The `Application Rates` section (source lines 115-133): a dict walks
`ratesLoop`, a bare string is collected and checked directly, any other
shape is ignored. -/
def appRatesSec (ntext : List Char) (ar : Option Val)
    (st : List Val × Bool × List (List Char)) :
    List Val × Bool × List (List Char) :=
  match ar.getD (.dict []) with
  | .dict items => ratesLoop ntext items st
  | .str s =>
    if !pyIn (normalizeStr s) ntext then
      (st.1 ++ [.str s], false, st.2.2 ++ [S "Missing application rate: " ++ s])
    else (st.1 ++ [.str s], st.2.1, st.2.2)
  | _ => st

/-- The `Max Application Rate` section (source lines 136-143): a truthy
string rate absent from the text is a failure; any other truthy rate, or
a present one, logs the informational within-limit detail. -/
def maxRateSec (ntext : List Char) (maxr : Option Val) (dev : List Char)
    (st : Bool × List (List Char)) : Bool × List (List Char) :=
  if truthy maxr then
    match maxr with
    | some (.str s) =>
      if !pyIn (normalizeStr s) ntext then
        (false, st.2 ++ [S "Exceeded max application rate: " ++ s ++ S ", " ++ dev])
      else
        (st.1, st.2 ++ [S "Max application rate within limit: " ++ s ++ S ", " ++ dev])
    | _ =>
      (st.1, st.2 ++ [S "Max application rate within limit: " ++ pyStrOpt maxr ++ S ", " ++ dev])
  else st

/-- Loop of the `Conditions` section: a required condition whose text is
absent from the normalized document is a failure.  (Object keys are
strings in the model, so the source's `isinstance(condition, str)` guard
is always satisfied.) -/
def condsLoop (ntext : List Char) :
    List (List Char × Val) → Bool × List (List Char) → Bool × List (List Char)
  | [], st => st
  | (cond, req) :: rest, (b, ds) =>
    if truthyV req && !pyIn (normalizeStr cond) ntext then
      condsLoop ntext rest (false, ds ++ [S "Condition not met: " ++ cond])
    else condsLoop ntext rest (b, ds)

/-- The `Conditions` section (source lines 146-151). -/
def condsSec (ntext : List Char) (conds : Option Val)
    (st : Bool × List (List Char)) : Bool × List (List Char) :=
  match conds.getD (.dict []) with
  | .dict items => condsLoop ntext items st
  | _ => st

/-- Loop of the `Additional Rules` section (source lines 156-160).
`rule.get` on a non-dict raises `AttributeError`; a failing rule reads
`rule['description']`, raising `KeyError` when the key is missing. -/
def rulesLoop (ntext : List Char) :
    List Val → Bool × List (List Char) → Except PyErr (Bool × List (List Char))
  | [], st => .ok st
  | rule :: rest, (b, ds) =>
    match rule with
    | .dict kvs =>
      match (dget kvs (S "rule_text")).getD (.str []) with
      | .str rt =>
        if !pyIn (normalizeStr rt) ntext then
          match dget kvs (S "description") with
          | some d =>
            rulesLoop ntext rest (false, ds ++ [S "Rule not met: " ++ pyStr d])
          | Option.none => .error (.keyError (S "description"))
        else rulesLoop ntext rest (b, ds)
      | _ => rulesLoop ntext rest (b, ds)
    | _ => .error .attributeError

/-- The `Additional Rules` section (source lines 154-160): only a list
shape is walked. -/
def rulesSec (ntext : List Char) (rules : Option Val)
    (st : Bool × List (List Char)) : Except PyErr (Bool × List (List Char)) :=
  match rules.getD (.list []) with
  | .list rs => rulesLoop ntext rs st
  | _ => .ok st

/-- Python `', '.join(labeled_usage_rates)` (source line 167): raises
`TypeError` when any collected rate is not a string. -/
def strVals : List Val → Option (List (List Char))
  | [] => some []
  | .str s :: rest => (strVals rest).map (fun l => s :: l)
  | _ :: _ => Option.none

def pyJoin (sep : List Char) (xs : List Val) : Except PyErr (List Char) :=
  match strVals xs with
  | some ss => .ok (List.intercalate sep ss)
  | Option.none => .error .typeError

/-- Evaluation of one matched product (source lines 108-169): the four
check sections in source order, then the result dict.  `pv` is the raw
`product['Product']` value. -/
def buildVerdict (text ntext : List Char) (pv : Val)
    (kvs : List (List Char × Val)) : Except PyErr Verdict :=
  let actual := extract_usage_rate text pv
  let s1 := appRatesSec ntext (dget kvs (S "Application Rates")) ([], true, [])
  let maxr := dget kvs (S "Max Application Rate")
  let dev := S "Actual: " ++ actual ++ S ", Labeled: " ++ pyStrOpt maxr
  let s2 := maxRateSec ntext maxr dev s1.2
  let s3 := condsSec ntext (dget kvs (S "Conditions")) s2
  match rulesSec ntext (dget kvs (S "Additional Rules")) s3 with
  | .error e => .error e
  | .ok s4 =>
    match pyJoin (S ", ") s1.1 with
    | .error e => .error e
    | .ok lab => .ok ⟨pv, s4.1, s4.2, actual, lab, dev⟩

/-- The catalog loop of `check_compliance` (source lines 98-169):
non-dict entries produce a warning and are skipped; entries without a
`Product` key are skipped silently (the bare `except: continue`); an
entry whose normalized product name is a substring of the normalized
text gets a verdict.  Returns the emitted warnings alongside the
verdicts, both in catalog order. -/
def ccLoop (text ntext : List Char) :
    List Val → Except PyErr (List (List Char) × List Verdict)
  | [] => .ok ([], [])
  | p :: ps =>
    match p with
    | .dict kvs =>
      match dget kvs (S "Product") with
      | Option.none => ccLoop text ntext ps
      | some pv =>
        if pyIn (normalize_text pv) ntext then
          match buildVerdict text ntext pv kvs with
          | .error e => .error e
          | .ok v =>
            match ccLoop text ntext ps with
            | .error e => .error e
            | .ok (ws, rs) => .ok (ws, v :: rs)
        else ccLoop text ntext ps
    | _ =>
      match ccLoop text ntext ps with
      | .error e => .error e
      | .ok (ws, rs) => .ok ((S "Invalid product entry: " ++ pyStr p) :: ws, rs)

/-- The function `check_compliance` of `app.py`: normalize the document text once,
then walk the catalog. -/
def check_compliance (text : List Char) (products : List Val) :
    Except PyErr (List (List Char) × List Verdict) :=
  ccLoop text (normalizeStr text) products

-- ----------------------------------------------------------------------
-- `add_rule` of `app.py`, lines 251-275 (the catalog mutation performed
-- when the button is pressed; widget reading and file persistence are
-- UI/storage collaborators outside the core).
/-- The rule object appended by `add_rule`. -/
def newRuleVal (desc rtext : List Char) (mar : Bool) : Val :=
  .dict [(S "description", .str desc), (S "rule_text", .str rtext),
         (S "missing_application_rate", .bool mar)]

/-- The test `product.get('Product') == product_name` (Python `==` is
`False` between a string and any non-string, including `None`). -/
def productNameMatches (name : List Char) (kvs : List (List Char × Val)) : Bool :=
  match dget kvs (S "Product") with
  | some (.str s) => s == name
  | _ => false

/-- The `for product in products` search loop: the first entry whose
`Product` value equals the given name is updated in place and the loop
breaks; `product.get` on a non-dict entry raises `AttributeError`;
`.append` on a non-list `Additional Rules` value raises too.  Returns
`none` when no entry matched. -/
def addRuleLoop (name : List Char) (rule : Val) :
    List Val → Except PyErr (Option (List Val))
  | [] => .ok Option.none
  | p :: ps =>
    match p with
    | .dict kvs =>
      if productNameMatches name kvs then
        match dget kvs (S "Additional Rules") with
        | Option.none =>
          .ok (some (.dict (dset kvs (S "Additional Rules") (.list [rule])) :: ps))
        | some (.list xs) =>
          .ok (some (.dict (dset kvs (S "Additional Rules") (.list (xs ++ [rule]))) :: ps))
        | some _ => .error .attributeError
      else
        match addRuleLoop name rule ps with
        | .error e => .error e
        | .ok Option.none => .ok Option.none
        | .ok (some l) => .ok (some (p :: l))
    | _ => .error .attributeError

/-- The fresh entry created for an unknown product name (source lines
267-274): only the product name and the singleton rule list. -/
def newProductEntry (name : List Char) (rule : Val) : Val :=
  .dict [(S "Product", .str name), (S "Additional Rules", .list [rule])]

/-- The function `add_rule` of `app.py`: update the first matching product entry, or
append a fresh entry holding only the product name and the singleton
rule list. -/
def add_rule (products : List Val) (product_name rule_description rtext : List Char)
    (mar : Bool) : Except PyErr (List Val) :=
  let rule := newRuleVal rule_description rtext mar
  match addRuleLoop product_name rule products with
  | .error e => .error e
  | .ok (some ps) => .ok ps
  | .ok Option.none => .ok (products ++ [newProductEntry product_name rule])

-- ----------------------------------------------------------------------
-- Helper predicates and lemmas for the claims.
/-- Is the value a Python `str`? -/
def isStrB : Val → Bool
  | .str _ => true
  | _ => false

/-- Is the value a Python `dict`? -/
def isDictB : Val → Bool
  | .dict _ => true
  | _ => false

/-- A failing-category finding: one of the four detail messages that the
source appends together with `compliant = False` (the within-limit
max-rate message is informational, not failing). -/
def isFailing (d : List Char) : Bool :=
  isPre (S "Missing application rate") d ||
  isPre (S "Exceeded max application rate") d ||
  isPre (S "Condition not met") d ||
  isPre (S "Rule not met") d

/-- The evolving `(compliant, details)` invariant: the flag is false
exactly when some appended detail is a failing-category finding. -/
def detInv (st : Bool × List (List Char)) : Prop :=
  st.1 = false ↔ st.2.any isFailing = true

-- ----------------------------------------------------------------------
-- Theorems.

-- Basic facts about the character-level functions.
theorem charOfNatToNat (n : Nat) (h : n < 55296) : (Char.ofNat n).toNat = n := by
  simp [Char.ofNat, Nat.isValidChar, h]
  rfl

theorem lowerChar_idem (c : Char) : lowerChar (lowerChar c) = lowerChar c := by
  unfold lowerChar
  by_cases h : 65 ≤ c.toNat ∧ c.toNat ≤ 90
  · rw [if_pos h]
    have h2 : (Char.ofNat (c.toNat + 32)).toNat = c.toNat + 32 :=
      charOfNatToNat _ (by omega)
    rw [if_neg (by omega)]
  · rw [if_neg h, if_neg h]

theorem isSpaceC_false_of_ge (c : Char) (h : 65 ≤ c.toNat) : isSpaceC c = false := by
  unfold isSpaceC
  simp only [Bool.or_eq_false_iff, decide_eq_false_iff_not]
  omega

theorem isSpaceC_lowerChar (c : Char) : isSpaceC (lowerChar c) = isSpaceC c := by
  by_cases h : 65 ≤ c.toNat ∧ c.toNat ≤ 90
  · have h1 : lowerChar c = Char.ofNat (c.toNat + 32) := by
      unfold lowerChar; rw [if_pos h]
    have h2 : (Char.ofNat (c.toNat + 32)).toNat = c.toNat + 32 :=
      charOfNatToNat _ (by omega)
    rw [h1, isSpaceC_false_of_ge _ (by omega), isSpaceC_false_of_ge _ (by omega)]
  · have h1 : lowerChar c = c := by unfold lowerChar; rw [if_neg h]
    rw [h1]

theorem lowerChar_space : lowerChar ' ' = ' ' := by
  unfold lowerChar
  rw [if_neg (by decide)]

-- `segs` never returns the empty list of segments.
theorem segs_cons (c : Char) (cs w : List Char) (ws : List (List Char))
    (h : segs cs = w :: ws) :
    segs (c :: cs) = if isSpaceC c then [] :: w :: ws else (c :: w) :: ws := by
  unfold segs
  rw [h]

theorem segs_ne_nil (s : List Char) : segs s ≠ [] := by
  induction s with
  | nil => simp [segs]
  | cons c cs ih =>
    rcases h : segs cs with _ | ⟨w, ws⟩
    · exact absurd h ih
    · rw [segs_cons c cs w ws h]
      split <;> simp

/-- Every character of every segment of `s` is a non-whitespace character
of `s`. -/
theorem mem_segs (s : List Char) :
    ∀ w ∈ segs s, ∀ c ∈ w, c ∈ s ∧ isSpaceC c = false := by
  induction s with
  | nil => intro w hw c hc; simp [segs] at hw; subst hw; simp at hc
  | cons a as ih =>
    intro w hw c hc
    rcases h : segs as with _ | ⟨g, gs⟩
    · exact absurd h (segs_ne_nil as)
    · rw [segs_cons a as g gs h] at hw
      by_cases hs : isSpaceC a
      · rw [if_pos hs] at hw
        rcases List.mem_cons.mp hw with hw | hw
        · subst hw; simp at hc
        · have := ih w (by rw [h]; exact hw) c hc
          exact ⟨List.mem_cons_of_mem _ this.1, this.2⟩
      · rw [if_neg hs] at hw
        rcases List.mem_cons.mp hw with hw | hw
        · subst hw
          rcases List.mem_cons.mp hc with hc | hc
          · subst hc
            exact ⟨List.mem_cons_self _ _, by simpa using hs⟩
          · have := ih g (by rw [h]; exact List.mem_cons_self _ _) c hc
            exact ⟨List.mem_cons_of_mem _ this.1, this.2⟩
        · have := ih w (by rw [h]; exact List.mem_cons.mpr (Or.inr hw)) c hc
          exact ⟨List.mem_cons_of_mem _ this.1, this.2⟩

theorem mem_words (s : List Char) :
    ∀ w ∈ words s, (w ≠ [] ∧ ∀ c ∈ w, c ∈ s ∧ isSpaceC c = false) := by
  intro w hw
  unfold words at hw
  rw [List.mem_filter] at hw
  refine ⟨by simpa using hw.2, fun c hc => mem_segs s w hw.1 c hc⟩

/-- Characters of `unwords ws` are spaces or characters of some chunk. -/
theorem mem_unwords (ws : List (List Char)) :
    ∀ c ∈ unwords ws, c = ' ' ∨ ∃ w ∈ ws, c ∈ w := by
  induction ws with
  | nil => intro c hc; simp [unwords] at hc
  | cons w ws ih =>
    intro c hc
    unfold unwords at hc
    cases ws with
    | nil => exact Or.inr ⟨w, List.mem_cons_self _ _, hc⟩
    | cons w' ws' =>
      rw [List.mem_append] at hc
      rcases hc with hc | hc
      · exact Or.inr ⟨w, List.mem_cons_self _ _, hc⟩
      · rcases List.mem_cons.mp hc with hc | hc
        · exact Or.inl hc
        · rcases ih c hc with h | ⟨g, hg, hcg⟩
          · exact Or.inl h
          · exact Or.inr ⟨g, List.mem_cons_of_mem _ hg, hcg⟩

-- Reconstruction: splitting the space-joined words gives back the words.
theorem segs_append_nonspace (w : List Char) (hw : ∀ c ∈ w, isSpaceC c = false)
    (s : List Char) (g : List Char) (gs : List (List Char)) (h : segs s = g :: gs) :
    segs (w ++ s) = (w ++ g) :: gs := by
  induction w with
  | nil => simpa using h
  | cons a as ih =>
    have ha : isSpaceC a = false := hw a (List.mem_cons_self _ _)
    have htail : ∀ c ∈ as, isSpaceC c = false :=
      fun c hc => hw c (List.mem_cons_of_mem _ hc)
    have := ih htail
    rw [List.cons_append, segs_cons a (as ++ s) (as ++ g) gs this, ha]
    simp

theorem segs_cons_space (c : Char) (cs : List Char) (hs : isSpaceC c = true) :
    segs (c :: cs) = [] :: segs cs := by
  rcases h : segs cs with _ | ⟨w, ws⟩
  · exact absurd h (segs_ne_nil cs)
  · rw [segs_cons c cs w ws h, if_pos hs]

theorem words_single (w : List Char) (hne : w ≠ [])
    (hw : ∀ c ∈ w, isSpaceC c = false) : words w = [w] := by
  have h0 : segs ([] : List Char) = [] :: [] := by simp [segs]
  have := segs_append_nonspace w hw [] [] [] h0
  rw [List.append_nil] at this
  unfold words
  rw [this]
  simp [hne]

theorem words_word_space (w : List Char) (hne : w ≠ [])
    (hw : ∀ c ∈ w, isSpaceC c = false) (t : List Char) :
    words (w ++ ' ' :: t) = w :: words t := by
  rcases h : segs t with _ | ⟨g, gs⟩
  · exact absurd h (segs_ne_nil t)
  · have hsp : segs (' ' :: t) = [] :: g :: gs := by
      rw [segs_cons_space ' ' t (by decide), h]
    have := segs_append_nonspace w hw (' ' :: t) [] (g :: gs) hsp
    rw [List.append_nil] at this
    unfold words
    rw [this, h]
    simp [hne]

theorem words_unwords (ws : List (List Char))
    (h : ∀ w ∈ ws, w ≠ [] ∧ ∀ c ∈ w, isSpaceC c = false) :
    words (unwords ws) = ws := by
  induction ws with
  | nil => simp [unwords, words, segs]
  | cons w ws ih =>
    have hw := h w (List.mem_cons_self _ _)
    cases ws with
    | nil =>
      unfold unwords
      exact words_single w hw.1 hw.2
    | cons w' ws' =>
      unfold unwords
      rw [words_word_space w hw.1 hw.2]
      rw [ih (fun g hg => h g (List.mem_cons_of_mem _ hg))]

theorem map_id_of_mem {α : Type} (f : α → α) (l : List α)
    (h : ∀ c ∈ l, f c = c) : l.map f = l := by
  induction l with
  | nil => rfl
  | cons a as ih =>
    simp only [List.map_cons]
    rw [h a (List.mem_cons_self _ _), ih (fun c hc => h c (List.mem_cons_of_mem _ hc))]

/-- Every character of a normalized string is fixed by lower-casing. -/
theorem normalizeStr_chars_lower (s : List Char) :
    ∀ c ∈ normalizeStr s, lowerChar c = c := by
  intro c hc
  unfold normalizeStr at hc
  rcases mem_unwords _ c hc with h | ⟨w, hw, hcw⟩
  · subst h; exact lowerChar_space
  · have := (mem_words _ w hw).2 c hcw
    rcases List.mem_map.mp this.1 with ⟨d, _, hd⟩
    subst hd
    exact lowerChar_idem d

theorem normalizeStr_idem (s : List Char) :
    normalizeStr (normalizeStr s) = normalizeStr s := by
  have h1 : (normalizeStr s).map lowerChar = normalizeStr s :=
    map_id_of_mem _ _ (normalizeStr_chars_lower s)
  show unwords (words ((normalizeStr s).map lowerChar)) = normalizeStr s
  rw [h1]
  show unwords (words (unwords (words (s.map lowerChar)))) = normalizeStr s
  rw [words_unwords _ (fun w hw =>
    ⟨(mem_words _ w hw).1, fun c hc => ((mem_words _ w hw).2 c hc).2⟩)]
  rfl

theorem pyIn_nil_pat (t : List Char) : pyIn [] t = true := by
  cases t <;> rfl

theorem isPre_cons (x y : Char) (xs ys : List Char) :
    isPre (x :: xs) (y :: ys) = (decide (x = y) && isPre xs ys) := rfl

/-- Comparing against a concatenation splits into comparing the first
`a.length` pattern characters against `a` and the rest against `r`. -/
theorem isPre_split (p a r : List Char) :
    isPre p (a ++ r) = (isPre (p.take a.length) a && isPre (p.drop a.length) r) := by
  induction a generalizing p with
  | nil => simp [isPre]
  | cons y ys ih =>
    cases p with
    | nil => simp [isPre]
    | cons x xs =>
      simp only [List.cons_append, List.length_cons, List.take_succ_cons,
        List.drop_succ_cons, isPre_cons]
      rw [ih, Bool.and_assoc]

theorem isFailing_missing_for (rest : List Char) :
    isFailing (S "Missing application rate for " ++ rest) = true := by
  unfold isFailing
  rw [isPre_split, isPre_split, isPre_split, isPre_split]
  rfl

theorem isFailing_missing_flat (rest : List Char) :
    isFailing (S "Missing application rate: " ++ rest) = true := by
  unfold isFailing
  rw [isPre_split, isPre_split, isPre_split, isPre_split]
  rfl

theorem isFailing_exceeded (rest : List Char) :
    isFailing (S "Exceeded max application rate: " ++ rest) = true := by
  unfold isFailing
  rw [isPre_split, isPre_split, isPre_split, isPre_split]
  rfl

theorem isFailing_cond (rest : List Char) :
    isFailing (S "Condition not met: " ++ rest) = true := by
  unfold isFailing
  rw [isPre_split, isPre_split, isPre_split, isPre_split]
  rfl

theorem isFailing_rule (rest : List Char) :
    isFailing (S "Rule not met: " ++ rest) = true := by
  unfold isFailing
  rw [isPre_split, isPre_split, isPre_split, isPre_split]
  rfl

theorem isFailing_info (rest : List Char) :
    isFailing (S "Max application rate within limit: " ++ rest) = false := by
  unfold isFailing
  rw [isPre_split, isPre_split, isPre_split, isPre_split]
  rfl

theorem detInv_init : detInv (true, []) := by simp [detInv]

theorem detInv_fail (ds : List (List Char)) (d : List Char)
    (hd : isFailing d = true) : detInv (false, ds ++ [d]) := by
  simp [detInv, List.any_append, hd]

theorem detInv_keep (b : Bool) (ds : List (List Char)) (d : List Char)
    (h : detInv (b, ds)) (hd : isFailing d = false) : detInv (b, ds ++ [d]) := by
  simp only [detInv, List.any_append, List.any_cons, List.any_nil, hd] at h ⊢
  simpa using h

/-- Lemma: `subRatesLoop` keeps the invariant and never resets the flag. -/
theorem subRatesLoop_props (ntext : List Char) (items : List (List Char × Val)) :
    ∀ lab b ds,
      ((subRatesLoop ntext items (lab, b, ds)).2.1 = true → b = true) ∧
      (detInv (b, ds) → detInv (subRatesLoop ntext items (lab, b, ds)).2) := by
  induction items with
  | nil => intro lab b ds; exact ⟨fun h => h, fun h => h⟩
  | cons item rest ih =>
    intro lab b ds
    obtain ⟨srt, sr⟩ := item
    cases sr with
    | str s =>
      cases hp : pyIn (normalizeStr s) ntext with
      | true =>
        simp only [subRatesLoop, hp, Bool.not_true, Bool.false_eq_true, if_false]
        exact ih (lab ++ [.str s]) b ds
      | false =>
        simp only [subRatesLoop, hp, Bool.not_false, if_true]
        refine ⟨fun h => absurd ((ih _ _ _).1 h) (by simp), fun _ =>
          (ih _ _ _).2 (detInv_fail _ _ (isFailing_missing_for _))⟩
    | bool v =>
      simp only [subRatesLoop]
      exact ih (lab ++ [.bool v]) b ds
    | int n =>
      simp only [subRatesLoop]
      exact ih (lab ++ [.int n]) b ds
    | list xs =>
      simp only [subRatesLoop]
      exact ih (lab ++ [.list xs]) b ds
    | dict kvs =>
      simp only [subRatesLoop]
      exact ih (lab ++ [.dict kvs]) b ds
    | null =>
      simp only [subRatesLoop]
      exact ih (lab ++ [.null]) b ds

/-- Lemma: `ratesLoop` keeps the invariant and never resets the flag. -/
theorem ratesLoop_props (ntext : List Char) (items : List (List Char × Val)) :
    ∀ lab b ds,
      ((ratesLoop ntext items (lab, b, ds)).2.1 = true → b = true) ∧
      (detInv (b, ds) → detInv (ratesLoop ntext items (lab, b, ds)).2) := by
  induction items with
  | nil => intro lab b ds; exact ⟨fun h => h, fun h => h⟩
  | cons item rest ih =>
    intro lab b ds
    obtain ⟨rt, r⟩ := item
    cases r with
    | dict sub =>
      simp only [ratesLoop]
      rcases hsub : subRatesLoop ntext sub (lab, b, ds) with ⟨lab', b', ds'⟩
      have hs := subRatesLoop_props ntext sub lab b ds
      rw [hsub] at hs
      refine ⟨fun h => hs.1 ((ih lab' b' ds').1 h), fun h => (ih lab' b' ds').2 (hs.2 h)⟩
    | str s =>
      cases hp : pyIn (normalizeStr s) ntext with
      | true =>
        simp only [ratesLoop, hp, Bool.not_true, Bool.false_eq_true, if_false]
        exact ih (lab ++ [.str s]) b ds
      | false =>
        simp only [ratesLoop, hp, Bool.not_false, if_true]
        refine ⟨fun h => absurd ((ih _ _ _).1 h) (by simp), fun _ =>
          (ih _ _ _).2 (detInv_fail _ _ (isFailing_missing_for _))⟩
    | bool v =>
      simp only [ratesLoop]
      exact ih (lab ++ [.bool v]) b ds
    | int n =>
      simp only [ratesLoop]
      exact ih (lab ++ [.int n]) b ds
    | list xs =>
      simp only [ratesLoop]
      exact ih (lab ++ [.list xs]) b ds
    | null =>
      simp only [ratesLoop]
      exact ih (lab ++ [.null]) b ds

/-- The `Application Rates` section keeps the invariant and never resets
the flag. -/
theorem appRatesSec_props (ntext : List Char) (ar : Option Val)
    (lab : List Val) (b : Bool) (ds : List (List Char)) :
    ((appRatesSec ntext ar (lab, b, ds)).2.1 = true → b = true) ∧
    (detInv (b, ds) → detInv (appRatesSec ntext ar (lab, b, ds)).2) := by
  unfold appRatesSec
  cases har : ar.getD (.dict []) with
  | dict items => exact ratesLoop_props ntext items lab b ds
  | str s =>
    cases hp : pyIn (normalizeStr s) ntext with
    | true =>
      simp only [hp, Bool.not_true, Bool.false_eq_true, if_false]
      exact ⟨fun h => h, fun h => h⟩
    | false =>
      simp only [hp, Bool.not_false, if_true]
      exact ⟨fun h => absurd h (by simp), fun _ =>
        detInv_fail _ _ (isFailing_missing_flat _)⟩
  | bool v => exact ⟨fun h => h, fun h => h⟩
  | int n => exact ⟨fun h => h, fun h => h⟩
  | list xs => exact ⟨fun h => h, fun h => h⟩
  | null => exact ⟨fun h => h, fun h => h⟩

/-- The `Max Application Rate` section keeps the invariant and never
resets the flag. -/
theorem maxRateSec_props (ntext : List Char) (maxr : Option Val)
    (dev : List Char) (b : Bool) (ds : List (List Char)) :
    ((maxRateSec ntext maxr dev (b, ds)).1 = true → b = true) ∧
    (detInv (b, ds) → detInv (maxRateSec ntext maxr dev (b, ds))) := by
  unfold maxRateSec
  cases ht : truthy maxr with
  | false =>
    simp only [Bool.false_eq_true, if_false]
    exact ⟨fun h => h, fun h => h⟩
  | true =>
    simp only [if_true]
    match maxr with
    | Option.none => exact ⟨fun h => h, fun h => detInv_keep _ _ _ h (isFailing_info _)⟩
    | some (.str s) =>
      cases hp : pyIn (normalizeStr s) ntext with
      | true =>
        simp only [hp, Bool.not_true, Bool.false_eq_true, if_false]
        exact ⟨fun h => h, fun h => detInv_keep _ _ _ h (isFailing_info _)⟩
      | false =>
        simp only [hp, Bool.not_false, if_true]
        exact ⟨fun h => absurd h (by simp), fun _ =>
          detInv_fail _ _ (isFailing_exceeded _)⟩
    | some (.bool v) => exact ⟨fun h => h, fun h => detInv_keep _ _ _ h (isFailing_info _)⟩
    | some (.int n) => exact ⟨fun h => h, fun h => detInv_keep _ _ _ h (isFailing_info _)⟩
    | some (.list xs) => exact ⟨fun h => h, fun h => detInv_keep _ _ _ h (isFailing_info _)⟩
    | some (.dict kvs) => exact ⟨fun h => h, fun h => detInv_keep _ _ _ h (isFailing_info _)⟩
    | some .null => exact ⟨fun h => h, fun h => detInv_keep _ _ _ h (isFailing_info _)⟩

/-- The `Conditions` loop keeps the invariant and never resets the flag. -/
theorem condsLoop_props (ntext : List Char) (items : List (List Char × Val)) :
    ∀ b ds,
      ((condsLoop ntext items (b, ds)).1 = true → b = true) ∧
      (detInv (b, ds) → detInv (condsLoop ntext items (b, ds))) := by
  induction items with
  | nil => intro b ds; exact ⟨fun h => h, fun h => h⟩
  | cons item rest ih =>
    intro b ds
    obtain ⟨cond, req⟩ := item
    cases hc : truthyV req && !pyIn (normalizeStr cond) ntext with
    | true =>
      simp only [condsLoop, hc, if_true]
      refine ⟨fun h => absurd ((ih _ _).1 h) (by simp), fun _ =>
        (ih _ _).2 (detInv_fail _ _ (isFailing_cond _))⟩
    | false =>
      simp only [condsLoop, hc, Bool.false_eq_true, if_false]
      exact ih b ds

/-- The `Conditions` section keeps the invariant and never resets the
flag. -/
theorem condsSec_props (ntext : List Char) (conds : Option Val)
    (b : Bool) (ds : List (List Char)) :
    ((condsSec ntext conds (b, ds)).1 = true → b = true) ∧
    (detInv (b, ds) → detInv (condsSec ntext conds (b, ds))) := by
  unfold condsSec
  cases conds.getD (.dict []) with
  | dict items => exact condsLoop_props ntext items b ds
  | str s => exact ⟨fun h => h, fun h => h⟩
  | bool v => exact ⟨fun h => h, fun h => h⟩
  | int n => exact ⟨fun h => h, fun h => h⟩
  | list xs => exact ⟨fun h => h, fun h => h⟩
  | null => exact ⟨fun h => h, fun h => h⟩

/-- The `Additional Rules` loop keeps the invariant and never resets the
flag (on runs that do not raise). -/
theorem rulesLoop_props (ntext : List Char) (rules : List Val) :
    ∀ b ds st', rulesLoop ntext rules (b, ds) = .ok st' →
      (st'.1 = true → b = true) ∧ (detInv (b, ds) → detInv st') := by
  induction rules with
  | nil =>
    intro b ds st' h
    simp only [rulesLoop] at h
    cases h
    exact ⟨fun h => h, fun h => h⟩
  | cons rule rest ih =>
    intro b ds st' h
    cases rule with
    | dict kvs =>
      simp only [rulesLoop] at h
      revert h
      cases hrt : (dget kvs (S "rule_text")).getD (.str []) with
      | str rt =>
        cases hp : pyIn (normalizeStr rt) ntext with
        | true =>
          simp only [hp, Bool.not_true, Bool.false_eq_true, if_false]
          intro h
          exact ih b ds st' h
        | false =>
          simp only [hp, Bool.not_false, if_true]
          cases hd : dget kvs (S "description") with
          | none =>
            simp only [hd]
            intro h
            cases h
          | some d =>
            simp only [hd]
            intro h
            refine ⟨fun hb => absurd ((ih _ _ _ h).1 hb) (by simp), fun _ =>
              (ih _ _ _ h).2 (detInv_fail _ _ (isFailing_rule _))⟩
      | bool v => intro h; exact ih b ds st' h
      | int n => intro h; exact ih b ds st' h
      | list xs => intro h; exact ih b ds st' h
      | dict kvs2 => intro h; exact ih b ds st' h
      | null => intro h; exact ih b ds st' h
    | str s =>
      simp only [rulesLoop] at h
      cases h
    | bool v =>
      simp only [rulesLoop] at h
      cases h
    | int n =>
      simp only [rulesLoop] at h
      cases h
    | list xs =>
      simp only [rulesLoop] at h
      cases h
    | null =>
      simp only [rulesLoop] at h
      cases h

/-- The `Additional Rules` section keeps the invariant and never resets
the flag (on runs that do not raise). -/
theorem rulesSec_props (ntext : List Char) (rules : Option Val)
    (b : Bool) (ds : List (List Char)) (st' : Bool × List (List Char))
    (h : rulesSec ntext rules (b, ds) = .ok st') :
    (st'.1 = true → b = true) ∧ (detInv (b, ds) → detInv st') := by
  unfold rulesSec at h
  revert h
  cases rules.getD (.list []) with
  | list rs => intro h; exact rulesLoop_props ntext rs b ds st' h
  | str s => intro h; cases h; exact ⟨fun h => h, fun h => h⟩
  | bool v => intro h; cases h; exact ⟨fun h => h, fun h => h⟩
  | int n => intro h; cases h; exact ⟨fun h => h, fun h => h⟩
  | dict kvs => intro h; cases h; exact ⟨fun h => h, fun h => h⟩
  | null => intro h; cases h; exact ⟨fun h => h, fun h => h⟩

/-- Any verdict a non-raising product evaluation produces satisfies the
flag/details invariant. -/
theorem buildVerdict_ok (text ntext : List Char) (pv : Val)
    (kvs : List (List Char × Val)) (v : Verdict)
    (h : buildVerdict text ntext pv kvs = .ok v) :
    v.compliant = false ↔ v.details.any isFailing = true := by
  simp only [buildVerdict] at h
  generalize hs1 : appRatesSec ntext (dget kvs (S "Application Rates")) ([], true, []) = s1 at h
  have p1 : detInv s1.2 := by
    rw [← hs1]
    exact (appRatesSec_props ntext (dget kvs (S "Application Rates")) [] true []).2 detInv_init
  obtain ⟨lab1, b1, ds1⟩ := s1
  generalize hdev : S "Actual: " ++ extract_usage_rate text pv ++ S ", Labeled: " ++
      pyStrOpt (dget kvs (S "Max Application Rate")) = dev at h
  generalize hs2 : maxRateSec ntext (dget kvs (S "Max Application Rate")) dev (lab1, b1, ds1).2 = s2 at h
  have p2 : detInv s2 := by
    rw [← hs2]
    exact (maxRateSec_props ntext (dget kvs (S "Max Application Rate")) dev b1 ds1).2 p1
  obtain ⟨b2, ds2⟩ := s2
  generalize hs3 : condsSec ntext (dget kvs (S "Conditions")) (b2, ds2) = s3 at h
  have p3 : detInv s3 := by
    rw [← hs3]
    exact (condsSec_props ntext (dget kvs (S "Conditions")) b2 ds2).2 p2
  obtain ⟨b3, ds3⟩ := s3
  revert h
  cases hr : rulesSec ntext (dget kvs (S "Additional Rules")) (b3, ds3) with
  | error e => intro h; cases h
  | ok s4 =>
    have p4 : detInv s4 := (rulesSec_props ntext _ b3 ds3 s4 hr).2 p3
    cases hj : pyJoin (S ", ") lab1 with
    | error e => intro h; cases h
    | ok lab =>
      intro h
      cases h
      exact p4

/-- The product value stored in a verdict is the entry's raw `Product`
value. -/
theorem buildVerdict_product (text ntext : List Char) (pv : Val)
    (kvs : List (List Char × Val)) (v : Verdict)
    (h : buildVerdict text ntext pv kvs = .ok v) : v.product = pv := by
  simp only [buildVerdict] at h
  revert h
  cases rulesSec ntext (dget kvs (S "Additional Rules"))
      (condsSec ntext (dget kvs (S "Conditions"))
        (maxRateSec ntext (dget kvs (S "Max Application Rate"))
          (S "Actual: " ++ extract_usage_rate text pv ++ S ", Labeled: " ++
            pyStrOpt (dget kvs (S "Max Application Rate")))
          (appRatesSec ntext (dget kvs (S "Application Rates")) ([], true, [])).2)) with
  | error e => intro h; cases h
  | ok s4 =>
    cases pyJoin (S ", ") (appRatesSec ntext (dget kvs (S "Application Rates")) ([], true, [])).1 with
    | error e => intro h; cases h
    | ok lab => intro h; cases h; rfl

/-- Every verdict of a non-raising run satisfies the flag/details
invariant. -/
theorem ccLoop_verdicts (text ntext : List Char) :
    ∀ (ps : List Val) (ws : List (List Char)) (rs : List Verdict),
      ccLoop text ntext ps = .ok (ws, rs) →
      ∀ vd ∈ rs, (vd.compliant = false ↔ vd.details.any isFailing = true) := by
  intro ps
  induction ps with
  | nil =>
    intro ws rs h vd hv
    simp only [ccLoop] at h
    cases h
    simp at hv
  | cons p rest ih =>
    intro ws rs h vd hv
    cases p with
    | dict kvs =>
      simp only [ccLoop] at h
      revert h
      cases hg : dget kvs (S "Product") with
      | none => intro h; exact ih ws rs h vd hv
      | some pv =>
        cases hin : pyIn (normalize_text pv) ntext with
        | false =>
          simp only [hin, Bool.false_eq_true, if_false]
          intro h
          exact ih ws rs h vd hv
        | true =>
          simp only [hin, if_true]
          cases hb : buildVerdict text ntext pv kvs with
          | error e => intro h; cases h
          | ok v0 =>
            cases hrest : ccLoop text ntext rest with
            | error e => intro h; cases h
            | ok pr =>
              obtain ⟨ws0, rs0⟩ := pr
              intro h
              cases h
              rcases List.mem_cons.mp hv with hv | hv
              · subst hv
                exact buildVerdict_ok text ntext pv kvs vd hb
              · exact ih _ _ hrest vd hv
    | str s =>
      simp only [ccLoop] at h
      revert h
      cases hrest : ccLoop text ntext rest with
      | error e => intro h; cases h
      | ok pr =>
        obtain ⟨ws0, rs0⟩ := pr
        intro h
        cases h
        exact ih _ _ hrest vd hv
    | bool bv =>
      simp only [ccLoop] at h
      revert h
      cases hrest : ccLoop text ntext rest with
      | error e => intro h; cases h
      | ok pr =>
        obtain ⟨ws0, rs0⟩ := pr
        intro h
        cases h
        exact ih _ _ hrest vd hv
    | int n =>
      simp only [ccLoop] at h
      revert h
      cases hrest : ccLoop text ntext rest with
      | error e => intro h; cases h
      | ok pr =>
        obtain ⟨ws0, rs0⟩ := pr
        intro h
        cases h
        exact ih _ _ hrest vd hv
    | list xs =>
      simp only [ccLoop] at h
      revert h
      cases hrest : ccLoop text ntext rest with
      | error e => intro h; cases h
      | ok pr =>
        obtain ⟨ws0, rs0⟩ := pr
        intro h
        cases h
        exact ih _ _ hrest vd hv
    | null =>
      simp only [ccLoop] at h
      revert h
      cases hrest : ccLoop text ntext rest with
      | error e => intro h; cases h
      | ok pr =>
        obtain ⟨ws0, rs0⟩ := pr
        intro h
        cases h
        exact ih _ _ hrest vd hv

theorem isDictB_dict (kvs : List (List Char × Val)) : isDictB (.dict kvs) = true := rfl

theorem isDictB_str (s : List Char) : isDictB (.str s) = false := rfl

theorem isDictB_bool (b : Bool) : isDictB (.bool b) = false := rfl

theorem isDictB_int (n : Int) : isDictB (.int n) = false := rfl

theorem isDictB_list (xs : List Val) : isDictB (.list xs) = false := rfl

theorem isDictB_null : isDictB .null = false := rfl

theorem pyIn_nil_right (p : List Char) (h : p ≠ []) : pyIn p [] = false := by
  cases p with
  | nil => exact absurd rfl h
  | cons c cs => rfl

/-- The warnings of a non-raising run are exactly one
`Invalid product entry` message per non-dict catalog entry, in order. -/
theorem ccLoop_warnings (text ntext : List Char) :
    ∀ (ps : List Val) (ws : List (List Char)) (rs : List Verdict),
      ccLoop text ntext ps = .ok (ws, rs) →
      ws = (ps.filter (fun q => !isDictB q)).map
             (fun q => S "Invalid product entry: " ++ pyStr q) := by
  intro ps
  induction ps with
  | nil =>
    intro ws rs h
    simp only [ccLoop] at h
    cases h
    rfl
  | cons p rest ih =>
    intro ws rs h
    cases p with
    | dict kvs =>
      simp only [ccLoop] at h
      revert h
      cases hg : dget kvs (S "Product") with
      | none =>
        intro h
        rw [ih ws rs h]
        simp [List.filter_cons, isDictB_dict]
      | some pv =>
        cases hin : pyIn (normalize_text pv) ntext with
        | false =>
          simp only [hin, Bool.false_eq_true, if_false]
          intro h
          rw [ih ws rs h]
          simp [List.filter_cons, isDictB_dict]
        | true =>
          simp only [hin, if_true]
          cases hb : buildVerdict text ntext pv kvs with
          | error e => intro h; cases h
          | ok v0 =>
            cases hrest : ccLoop text ntext rest with
            | error e => intro h; cases h
            | ok pr =>
              obtain ⟨ws0, rs0⟩ := pr
              intro h
              cases h
              rw [ih _ _ hrest]
              simp [List.filter_cons, isDictB_dict]
    | str s =>
      simp only [ccLoop] at h
      revert h
      cases hrest : ccLoop text ntext rest with
      | error e => intro h; cases h
      | ok pr =>
        obtain ⟨ws0, rs0⟩ := pr
        intro h
        cases h
        simp [List.filter_cons, isDictB_str, isDictB_bool, isDictB_int, isDictB_list, isDictB_null, ih _ _ hrest]
    | bool bv =>
      simp only [ccLoop] at h
      revert h
      cases hrest : ccLoop text ntext rest with
      | error e => intro h; cases h
      | ok pr =>
        obtain ⟨ws0, rs0⟩ := pr
        intro h
        cases h
        simp [List.filter_cons, isDictB_str, isDictB_bool, isDictB_int, isDictB_list, isDictB_null, ih _ _ hrest]
    | int n =>
      simp only [ccLoop] at h
      revert h
      cases hrest : ccLoop text ntext rest with
      | error e => intro h; cases h
      | ok pr =>
        obtain ⟨ws0, rs0⟩ := pr
        intro h
        cases h
        simp [List.filter_cons, isDictB_str, isDictB_bool, isDictB_int, isDictB_list, isDictB_null, ih _ _ hrest]
    | list xs =>
      simp only [ccLoop] at h
      revert h
      cases hrest : ccLoop text ntext rest with
      | error e => intro h; cases h
      | ok pr =>
        obtain ⟨ws0, rs0⟩ := pr
        intro h
        cases h
        simp [List.filter_cons, isDictB_str, isDictB_bool, isDictB_int, isDictB_list, isDictB_null, ih _ _ hrest]
    | null =>
      simp only [ccLoop] at h
      revert h
      cases hrest : ccLoop text ntext rest with
      | error e => intro h; cases h
      | ok pr =>
        obtain ⟨ws0, rs0⟩ := pr
        intro h
        cases h
        simp [List.filter_cons, isDictB_str, isDictB_bool, isDictB_int, isDictB_list, isDictB_null, ih _ _ hrest]

/-- Every verdict of a non-raising run belongs to a product whose
normalized name is a substring of the normalized document text. -/
theorem ccLoop_verdict_products (text ntext : List Char) :
    ∀ (ps : List Val) (ws : List (List Char)) (rs : List Verdict),
      ccLoop text ntext ps = .ok (ws, rs) →
      ∀ vd ∈ rs, pyIn (normalize_text vd.product) ntext = true := by
  intro ps
  induction ps with
  | nil =>
    intro ws rs h vd hv
    simp only [ccLoop] at h
    cases h
    simp at hv
  | cons p rest ih =>
    intro ws rs h vd hv
    cases p with
    | dict kvs =>
      simp only [ccLoop] at h
      revert h
      cases hg : dget kvs (S "Product") with
      | none => intro h; exact ih ws rs h vd hv
      | some pv =>
        cases hin : pyIn (normalize_text pv) ntext with
        | false =>
          simp only [hin, Bool.false_eq_true, if_false]
          intro h
          exact ih ws rs h vd hv
        | true =>
          simp only [hin, if_true]
          cases hb : buildVerdict text ntext pv kvs with
          | error e => intro h; cases h
          | ok v0 =>
            cases hrest : ccLoop text ntext rest with
            | error e => intro h; cases h
            | ok pr =>
              obtain ⟨ws0, rs0⟩ := pr
              intro h
              cases h
              rcases List.mem_cons.mp hv with hv | hv
              · subst hv
                rw [buildVerdict_product text ntext pv kvs vd hb]
                exact hin
              · exact ih _ _ hrest vd hv
    | str s =>
      simp only [ccLoop] at h
      revert h
      cases hrest : ccLoop text ntext rest with
      | error e => intro h; cases h
      | ok pr =>
        obtain ⟨ws0, rs0⟩ := pr
        intro h
        cases h
        exact ih _ _ hrest vd hv
    | bool bv =>
      simp only [ccLoop] at h
      revert h
      cases hrest : ccLoop text ntext rest with
      | error e => intro h; cases h
      | ok pr =>
        obtain ⟨ws0, rs0⟩ := pr
        intro h
        cases h
        exact ih _ _ hrest vd hv
    | int n =>
      simp only [ccLoop] at h
      revert h
      cases hrest : ccLoop text ntext rest with
      | error e => intro h; cases h
      | ok pr =>
        obtain ⟨ws0, rs0⟩ := pr
        intro h
        cases h
        exact ih _ _ hrest vd hv
    | list xs =>
      simp only [ccLoop] at h
      revert h
      cases hrest : ccLoop text ntext rest with
      | error e => intro h; cases h
      | ok pr =>
        obtain ⟨ws0, rs0⟩ := pr
        intro h
        cases h
        exact ih _ _ hrest vd hv
    | null =>
      simp only [ccLoop] at h
      revert h
      cases hrest : ccLoop text ntext rest with
      | error e => intro h; cases h
      | ok pr =>
        obtain ⟨ws0, rs0⟩ := pr
        intro h
        cases h
        exact ih _ _ hrest vd hv

/-- When no catalog entry's normalized product name occurs in the
normalized text, the run succeeds with no verdicts and only the non-dict
warnings. -/
theorem ccLoop_no_match (text ntext : List Char) :
    ∀ ps : List Val,
      (∀ kvs pv, Val.dict kvs ∈ ps → dget kvs (S "Product") = some pv →
        pyIn (normalize_text pv) ntext = false) →
      ccLoop text ntext ps =
        .ok ((ps.filter (fun q => !isDictB q)).map
               (fun q => S "Invalid product entry: " ++ pyStr q), []) := by
  intro ps
  induction ps with
  | nil => intro hyp; rfl
  | cons p rest ih =>
    intro hyp
    have hrest := ih (fun kvs2 pv2 hm hg => hyp kvs2 pv2 (List.mem_cons_of_mem _ hm) hg)
    cases p with
    | dict kvs =>
      simp only [ccLoop]
      cases hg : dget kvs (S "Product") with
      | none =>
        rw [hrest]
        simp [List.filter_cons, isDictB_dict]
      | some pv =>
        have hin := hyp kvs pv (List.mem_cons_self _ _) hg
        simp only [hin, Bool.false_eq_true, if_false]
        rw [hrest]
        simp [List.filter_cons, isDictB_dict]
    | str s =>
      simp only [ccLoop]
      rw [hrest]
      simp [List.filter_cons, isDictB_str]
    | bool bv =>
      simp only [ccLoop]
      rw [hrest]
      simp [List.filter_cons, isDictB_bool]
    | int n =>
      simp only [ccLoop]
      rw [hrest]
      simp [List.filter_cons, isDictB_int]
    | list xs =>
      simp only [ccLoop]
      rw [hrest]
      simp [List.filter_cons, isDictB_list]
    | null =>
      simp only [ccLoop]
      rw [hrest]
      simp [List.filter_cons, isDictB_null]

/-- When every entry is a dict and none matches the name, the search loop
reports no match. -/
theorem addRuleLoop_no_match (name : List Char) (rule : Val) :
    ∀ ps : List Val,
      (∀ p ∈ ps, ∃ kvs, p = Val.dict kvs ∧ productNameMatches name kvs = false) →
      addRuleLoop name rule ps = .ok Option.none := by
  intro ps
  induction ps with
  | nil => intro hyp; rfl
  | cons p rest ih =>
    intro hyp
    obtain ⟨kvs, rfl, hm⟩ := hyp p (List.mem_cons_self _ _)
    simp only [addRuleLoop, hm, Bool.false_eq_true, if_false]
    rw [ih (fun q hq => hyp q (List.mem_cons_of_mem _ hq))]

/-- Appending a second rule through the loop: the non-matching dict
entries are passed through unchanged and the appended fresh entry's
rule list grows by one. -/
theorem addRuleLoop_append_entry (name : List Char) (rule1 rule2 : Val) :
    ∀ ps : List Val,
      (∀ p ∈ ps, ∃ kvs, p = Val.dict kvs ∧ productNameMatches name kvs = false) →
      addRuleLoop name rule2 (ps ++ [newProductEntry name rule1]) =
        .ok (some (ps ++ [Val.dict [(S "Product", .str name),
          (S "Additional Rules", .list [rule1, rule2])]])) := by
  intro ps
  induction ps with
  | nil =>
    intro hyp
    simp only [List.nil_append, newProductEntry, addRuleLoop]
    rw [show productNameMatches name
        [(S "Product", Val.str name), (S "Additional Rules", Val.list [rule1])] =
        (name == name) from rfl, beq_self_eq_true]
    rfl
  | cons p rest ih =>
    intro hyp
    obtain ⟨kvs, rfl, hm⟩ := hyp p (List.mem_cons_self _ _)
    simp only [List.cons_append, addRuleLoop, hm, Bool.false_eq_true, if_false,
      List.append_eq]
    rw [ih (fun q hq => hyp q (List.mem_cons_of_mem _ hq))]

-- ----------------------------------------------------------------------
-- The claims.
/-- C1: for every document text and catalog, every verdict of a
successful evaluation has `compliant = false` iff its `details` contain a
failing-category finding; the informational within-limit message is never
failing; and no check section ever turns `compliant` back to `true`
(each section's output flag can be `true` only if its input flag was). -/
theorem C1_compliant_iff_failing_detail :
    (∀ (text : List Char) (products : List Val) (ws : List (List Char))
        (rs : List Verdict),
        check_compliance text products = .ok (ws, rs) →
        ∀ vd ∈ rs, (vd.compliant = false ↔ vd.details.any isFailing = true))
    ∧ (∀ rest, isFailing (S "Max application rate within limit: " ++ rest) = false)
    ∧ (∀ ntext ar lab b ds, (appRatesSec ntext ar (lab, b, ds)).2.1 = true → b = true)
    ∧ (∀ ntext maxr dev b ds, (maxRateSec ntext maxr dev (b, ds)).1 = true → b = true)
    ∧ (∀ ntext conds b ds, (condsSec ntext conds (b, ds)).1 = true → b = true)
    ∧ (∀ ntext rules b ds st', rulesSec ntext rules (b, ds) = .ok st' →
        st'.1 = true → b = true) := by
  refine ⟨?_, isFailing_info, ?_, ?_, ?_, ?_⟩
  · intro text products ws rs h vd hv
    exact ccLoop_verdicts text (normalizeStr text) products ws rs h vd hv
  · intro ntext ar lab b ds
    exact (appRatesSec_props ntext ar lab b ds).1
  · intro ntext maxr dev b ds
    exact (maxRateSec_props ntext maxr dev b ds).1
  · intro ntext conds b ds
    exact (condsSec_props ntext conds b ds).1
  · intro ntext rules b ds st' h
    exact (rulesSec_props ntext rules b ds st' h).1

theorem C1_witness :
    (⟨Val.str (S "a"), true, [], S "Not found", [],
      S "Actual: Not found, Labeled: None"⟩ : Verdict).compliant = false ↔
    (⟨Val.str (S "a"), true, [], S "Not found", [],
      S "Actual: Not found, Labeled: None"⟩ : Verdict).details.any isFailing = true :=
  C1_compliant_iff_failing_detail.1 (S "a") [Val.dict [(S "Product", Val.str (S "a"))]]
    [] [⟨Val.str (S "a"), true, [], S "Not found", [],
      S "Actual: Not found, Labeled: None"⟩] rfl
    _ (List.mem_singleton.mpr rfl)

/-- C2: the claim says the evaluator never raises on malformed catalog
entries; in fact a non-dict `Additional Rules` item raises
`AttributeError`, a failing rule without a `description` key raises
`KeyError`, and a non-string application-rate value raises `TypeError` at
the final `', '.join`.  Each is shown on a concrete catalog. -/
theorem C2_malformed_entries_raise :
    check_compliance (S "x")
      [Val.dict [(S "Product", Val.str (S "x")),
                 (S "Additional Rules", Val.list [Val.int 0])]]
      = .error .attributeError
    ∧ check_compliance (S "x")
      [Val.dict [(S "Product", Val.str (S "x")),
                 (S "Additional Rules",
                  Val.list [Val.dict [(S "rule_text", Val.str (S "zz"))]])]]
      = .error (.keyError (S "description"))
    ∧ check_compliance (S "x")
      [Val.dict [(S "Product", Val.str (S "x")),
                 (S "Application Rates", Val.dict [(S "a", Val.int 42)])]]
      = .error .typeError :=
  ⟨rfl, rfl, rfl⟩

/-- C3 counterexample: a dict entry lacking a `Product` key is skipped
with no warning at all — the run succeeds with empty warnings, refuting
the claim that every malformed entry surfaces an attributable message. -/
theorem C3_counterexample_missing_product_silent :
    check_compliance (S "x") [Val.dict [(S "a", Val.str (S "y"))]] = .ok ([], []) := rfl

/-- C3 (amended): the warnings of a successful run are exactly one
`Invalid product entry` message per non-dict entry, in catalog order;
a dict entry without a `Product` key is skipped silently, contributing
neither a warning nor a verdict. -/
theorem C3_amended_warnings_exactly_nondict :
    (∀ (text : List Char) (products : List Val) (ws : List (List Char))
        (rs : List Verdict),
        check_compliance text products = .ok (ws, rs) →
        ws = (products.filter (fun q => !isDictB q)).map
               (fun q => S "Invalid product entry: " ++ pyStr q))
    ∧ (∀ (text ntext : List Char) (kvs : List (List Char × Val)) (ps : List Val),
        dget kvs (S "Product") = Option.none →
        ccLoop text ntext (Val.dict kvs :: ps) = ccLoop text ntext ps) := by
  refine ⟨?_, ?_⟩
  · intro text products ws rs h
    exact ccLoop_warnings text (normalizeStr text) products ws rs h
  · intro text ntext kvs ps hg
    simp only [ccLoop, hg]

theorem C3_witness :
    [S "Invalid product entry: None"] =
      ([Val.null].filter (fun q => !isDictB q)).map
        (fun q => S "Invalid product entry: " ++ pyStr q) :=
  C3_amended_warnings_exactly_nondict.1 (S "x") [Val.null]
    [S "Invalid product entry: None"] [] rfl

/-- C4 counterexample: the empty document against the non-empty catalog
`[{"Product": " "}]` yields one verdict, not an empty list, because the
product name normalizes to the empty string, which is a substring of the
empty normalized document. -/
theorem C4_counterexample_empty_doc_nonempty_verdicts :
    check_compliance (S "") [Val.dict [(S "Product", Val.str (S " "))]] =
      .ok ([], [⟨Val.str (S " "), true, [], S "Not found", [],
        S "Actual: Not found, Labeled: None"⟩]) := rfl

/-- C4 (amended): every verdict of a successful run belongs to an entry
whose normalized product name is a substring of the normalized document
text; and the empty document yields no verdicts provided every entry's
`Product` value has a non-empty normalization. -/
theorem C4_amended_substring_gate :
    (∀ (text : List Char) (products : List Val) (ws : List (List Char))
        (rs : List Verdict),
        check_compliance text products = .ok (ws, rs) →
        ∀ vd ∈ rs, pyIn (normalize_text vd.product) (normalizeStr text) = true)
    ∧ (∀ products : List Val,
        (∀ kvs pv, Val.dict kvs ∈ products → dget kvs (S "Product") = some pv →
          normalize_text pv ≠ []) →
        check_compliance (S "") products =
          .ok ((products.filter (fun q => !isDictB q)).map
                 (fun q => S "Invalid product entry: " ++ pyStr q), [])) := by
  refine ⟨?_, ?_⟩
  · intro text products ws rs h vd hv
    exact ccLoop_verdict_products text (normalizeStr text) products ws rs h vd hv
  · intro products hyp
    exact ccLoop_no_match (S "") (normalizeStr (S "")) products
      (fun kvs pv hm hg => pyIn_nil_right _ (hyp kvs pv hm hg))

theorem C4_witness :
    check_compliance (S "") [Val.dict [(S "Product", Val.str (S "x"))]] = .ok ([], []) := by
  have h := C4_amended_substring_gate.2 [Val.dict [(S "Product", Val.str (S "x"))]] ?hyp
  · exact h
  case hyp =>
    intro kvs pv hm hg
    have hk : Val.dict kvs = Val.dict [(S "Product", Val.str (S "x"))] :=
      List.mem_singleton.mp hm
    injection hk with hkvs
    subst hkvs
    have hpv : some (Val.str (S "x")) = some pv := hg
    injection hpv with hpv
    subst hpv
    decide

/-- C5: the extractor tries its three patterns in fixed order and returns
the first match's value and unit joined by one space, or the sentinel
`"Not found"`; on a text holding an earlier per-area phrase and a later
`Concentrated Amount` phrase, pattern 1 still wins. -/
theorem C5_extractor_priority_and_sentinel :
    (∀ (t : List Char) (g : List (Nat × List Char)) (p : Val),
        reSearch pat1 t = some g → extract_usage_rate t p = renderMatch g)
    ∧ (∀ (t : List Char) (g : List (Nat × List Char)) (p : Val),
        reSearch pat1 t = Option.none → reSearch pat2 t = some g →
        extract_usage_rate t p = renderMatch g)
    ∧ (∀ (t : List Char) (g : List (Nat × List Char)) (p : Val),
        reSearch pat1 t = Option.none → reSearch pat2 t = Option.none →
        reSearch pat3 t = some g → extract_usage_rate t p = renderMatch g)
    ∧ (∀ (t : List Char) (p : Val),
        reSearch pat1 t = Option.none → reSearch pat2 t = Option.none →
        reSearch pat3 t = Option.none → extract_usage_rate t p = S "Not found")
    ∧ (∀ p : Val, extract_usage_rate
        (S "Use 10 oz per 100 sq ft. Concentrated Amount: 5 grams") p = S "5 grams") := by
  refine ⟨?_, ?_, ?_, ?_, fun p => rfl⟩
  · intro t g p h1
    unfold extract_usage_rate
    rw [h1]
  · intro t g p h1 h2
    unfold extract_usage_rate
    rw [h1, h2]
  · intro t g p h1 h2 h3
    unfold extract_usage_rate
    rw [h1, h2, h3]
  · intro t p h1 h2 h3
    unfold extract_usage_rate
    rw [h1, h2, h3]

theorem C5_witness :
    extract_usage_rate (S "hello world") Val.null = S "Not found" :=
  C5_extractor_priority_and_sentinel.2.2.2.1 (S "hello world") Val.null rfl rfl rfl

/-- C6: the Termidor SC end-to-end scenario — exactly one verdict,
non-compliant, whose details are the informational within-limit message
and the failed moist-soil condition. -/
theorem C6_termidor_scenario :
    check_compliance (S "Applied Termidor SC at 0.06% solution to dry soil")
      [Val.dict [(S "Product", Val.str (S "Termidor SC")),
                 (S "Max Application Rate", Val.str (S "0.06% solution")),
                 (S "Conditions", Val.dict [(S "soil must be moist", Val.bool true)])]]
    = .ok ([], [⟨Val.str (S "Termidor SC"), false,
        [S "Max application rate within limit: 0.06% solution, Actual: Not found, Labeled: 0.06% solution",
         S "Condition not met: soil must be moist"],
        S "Not found", [], S "Actual: Not found, Labeled: 0.06% solution"⟩]) := rfl

/-- C8: the `product_name` argument has no influence on the extractor's
result — the source accepts it and never reads it. -/
theorem C8_product_name_has_no_influence (t : List Char) (p1 p2 : Val) :
    extract_usage_rate t p1 = extract_usage_rate t p2 := rfl

/-- C9: normalization is idempotent; every non-string input normalizes to
the empty string; on strings it is lower-casing followed by
whitespace-collapsing and trimming (`unwords ∘ words`). -/
theorem C9_normalize_idempotent_and_nonstring :
    (∀ s : List Char, normalizeStr (normalizeStr s) = normalizeStr s)
    ∧ (∀ v : Val, isStrB v = false → normalize_text v = [])
    ∧ (∀ s : List Char, normalize_text (Val.str s) =
        unwords (words (s.map lowerChar))) := by
  refine ⟨normalizeStr_idem, ?_, fun s => rfl⟩
  intro v hv
  cases v with
  | str s => exact Bool.noConfusion hv
  | bool b => rfl
  | int n => rfl
  | list xs => rfl
  | dict kvs => rfl
  | null => rfl

theorem C9_witness :
    normalizeStr (normalizeStr (S "  Mixed   CASE text ")) =
      normalizeStr (S "  Mixed   CASE text ")
    ∧ normalize_text (Val.int 3) = [] :=
  ⟨C9_normalize_idempotent_and_nonstring.1 (S "  Mixed   CASE text "),
   C9_normalize_idempotent_and_nonstring.2.1 (Val.int 3) rfl⟩

/-- C10: an `Additional Rules` dict entry whose `rule_text` is missing or
normalizes to the empty string can never fail — the empty string is a
substring of every normalized text, so the rule neither flips `compliant`
nor appends a `Rule not met` finding. -/
theorem C10_trivial_rule_text_never_fails :
    ∀ (ntext : List Char) (b : Bool) (ds : List (List Char))
      (kvs : List (List Char × Val)) (rest : List Val),
      (∀ v, dget kvs (S "rule_text") = some v → normalize_text v = []) →
      rulesLoop ntext (Val.dict kvs :: rest) (b, ds) = rulesLoop ntext rest (b, ds) := by
  intro ntext b ds kvs rest hyp
  simp only [rulesLoop]
  cases hrt : (dget kvs (S "rule_text")).getD (.str []) with
  | str rt =>
    have hnil : normalizeStr rt = [] := by
      cases hg : dget kvs (S "rule_text") with
      | none =>
        rw [hg] at hrt
        injection hrt with hrt
        rw [← hrt]
        rfl
      | some v =>
        rw [hg] at hrt
        have := hyp v hg
        rw [Option.getD_some] at hrt
        rw [hrt] at this
        exact this
    simp [hnil, pyIn_nil_pat]
  | bool bv => rfl
  | int n => rfl
  | list xs => rfl
  | dict kvs2 => rfl
  | null => rfl

theorem C10_witness :
    rulesLoop (S "doc") [Val.dict [(S "description", Val.str (S "d"))]] (true, []) =
      rulesLoop (S "doc") [] (true, []) :=
  C10_trivial_rule_text_never_fails (S "doc") true [] [(S "description", Val.str (S "d"))] []
    (fun v h => Option.noConfusion h)

/-- C7 counterexample: on a catalog holding a non-dict entry, `add_rule`
raises `AttributeError` instead of appending the new product entry the
claim promises for every catalog. -/
theorem C7_counterexample_nondict_entry :
    add_rule [Val.int 7] (S "x") (S "d") (S "r") false = .error .attributeError := rfl

/-- C7 (amended): on a catalog of dict entries none of which matches the
product name, `add_rule` appends exactly one fresh entry holding only the
product name and the singleton rule list; adding a second rule for the
same name then extends that entry's list to two rules, leaving every
other entry unchanged and creating no duplicate. -/
theorem C7_amended_add_rule :
    ∀ (products : List Val) (name d1 r1 d2 r2 : List Char) (f1 f2 : Bool),
      (∀ p ∈ products, ∃ kvs, p = Val.dict kvs ∧ productNameMatches name kvs = false) →
      add_rule products name d1 r1 f1 =
        .ok (products ++ [newProductEntry name (newRuleVal d1 r1 f1)])
      ∧ add_rule (products ++ [newProductEntry name (newRuleVal d1 r1 f1)]) name d2 r2 f2 =
        .ok (products ++ [Val.dict [(S "Product", .str name),
          (S "Additional Rules",
           .list [newRuleVal d1 r1 f1, newRuleVal d2 r2 f2])]]) := by
  intro products name d1 r1 d2 r2 f1 f2 hyp
  constructor
  · simp only [add_rule]
    rw [addRuleLoop_no_match name (newRuleVal d1 r1 f1) products hyp]
  · simp only [add_rule]
    rw [addRuleLoop_append_entry name (newRuleVal d1 r1 f1) (newRuleVal d2 r2 f2)
      products hyp]

theorem C7_witness :
    add_rule [] (S "x") (S "d1") (S "r1") false =
      .ok [newProductEntry (S "x") (newRuleVal (S "d1") (S "r1") false)]
    ∧ add_rule [newProductEntry (S "x") (newRuleVal (S "d1") (S "r1") false)]
        (S "x") (S "d2") (S "r2") true =
      .ok [Val.dict [(S "Product", Val.str (S "x")),
        (S "Additional Rules",
         Val.list [newRuleVal (S "d1") (S "r1") false,
                   newRuleVal (S "d2") (S "r2") true])]] := by
  have h := C7_amended_add_rule [] (S "x") (S "d1") (S "r1") (S "d2") (S "r2") false true
    (fun p hp => absurd hp (List.not_mem_nil p))
  exact ⟨by simpa using h.1, by simpa using h.2⟩
